import Mathlib

/-!
Verification of the keygen keyboard-layout optimizer.

This file gives a shallow embedding, in Lean 4, of the core of the keygen
repository (files layout.rs, penalty.rs, annealing.rs, simulator.rs) and
settles a list of claims about it.  Conventions of the embedding:

* Rust characters are modelled as natural numbers (their Unicode scalar
  values); Rust strings are lists of such numbers.  Byte-level string
  indexing, which the source performs on substring slices, is modelled
  faithfully through the UTF-8 byte length of each character.
* `f64` values that the program manipulates are all produced from the
  dyadic rule weights and integer counts, and are modelled as rationals;
  the one exception is division by a zero corpus length, modelled as an
  `Option` with `none` standing for the non-finite IEEE result.
* Rust panics (out-of-bounds indexing, slicing a string outside character
  boundaries, explicit `panic!`) are modelled with `Except Unit` or a
  dedicated error type; `Except.error` marks a panic.
-/

deriving instance DecidableEq for Except

namespace Keygen

/-! ## Layout model (layout.rs) -/

/-- Finger assignment of a physical key (layout.rs, `enum Finger`). -/
inductive Finger
  | Thumb
  | Index
  | Middle
  | Ring
  | Pinky
deriving DecidableEq

/-- Hand assignment of a physical key (layout.rs, `enum Hand`). -/
inductive Hand
  | Left
  | Right
deriving DecidableEq

/-- Row of a physical key (layout.rs, `enum Row`). -/
inductive Row
  | Top
  | Home
  | Bottom
  | Thumb
deriving DecidableEq

/-- Resolved attributes of one keypress (layout.rs, `struct KeyPress`).
The character code `kc` is a Unicode scalar value. -/
structure KeyPress where
  kc : ℕ
  pos : ℕ
  finger : Finger
  hand : Hand
  row : Row
  center : Bool
deriving DecidableEq

/-- A layout: base layer and shifted layer, each a 33-slot character map
(layout.rs, `struct Layout(Layer, Layer)` with `Layer(KeyMap<char>)`).
Each layer is the list of the 33 character codes in key-position order. -/
structure Layout where
  lower : List ℕ
  upper : List ℕ
deriving DecidableEq

/-- A layout is well formed when both layers have exactly 33 slots
(`KeyMap<T>` is `[T; 33]`). -/
def Layout.wf (l : Layout) : Prop :=
  l.lower.length = 33 ∧ l.upper.length = 33

/-- Per-position finger table (layout.rs, `KEY_FINGERS`). -/
def KEY_FINGERS : List Finger :=
  [.Pinky, .Ring, .Middle, .Index, .Index,   .Index, .Index, .Middle, .Ring, .Pinky, .Pinky,
   .Pinky, .Ring, .Middle, .Index, .Index,   .Index, .Index, .Middle, .Ring, .Pinky, .Pinky,
   .Pinky, .Ring, .Middle, .Index, .Index,   .Index, .Index, .Middle, .Ring, .Pinky,
   .Thumb]

/-- Per-position hand table (layout.rs, `KEY_HANDS`). -/
def KEY_HANDS : List Hand :=
  [.Left, .Left, .Left, .Left, .Left,   .Right, .Right, .Right, .Right, .Right, .Right,
   .Left, .Left, .Left, .Left, .Left,   .Right, .Right, .Right, .Right, .Right, .Right,
   .Left, .Left, .Left, .Left, .Left,   .Right, .Right, .Right, .Right, .Right,
   .Left]

/-- Per-position row table (layout.rs, `KEY_ROWS`). -/
def KEY_ROWS : List Row :=
  [.Top, .Top, .Top, .Top, .Top,   .Top, .Top, .Top, .Top, .Top, .Top,
   .Home, .Home, .Home, .Home, .Home,   .Home, .Home, .Home, .Home, .Home, .Home,
   .Bottom, .Bottom, .Bottom, .Bottom, .Bottom,   .Bottom, .Bottom, .Bottom, .Bottom, .Bottom,
   .Thumb]

/-- Per-position center-column table (layout.rs, `KEY_CENTER_COLUMN`). -/
def KEY_CENTER_COLUMN : List Bool :=
  [false, false, false, false, true,   true, false, false, false, false, false,
   false, false, false, false, true,   true, false, false, false, false, false,
   false, false, false, false, true,   true, false, false, false, false,
   false]

/-- Helper turning a list of Lean characters into character codes. -/
def charCodes (s : List Char) : List ℕ :=
  s.map Char.toNat

/-- The built-in initial layout (layout.rs, `INIT_LAYOUT`). -/
def INIT_LAYOUT : Layout :=
  { lower := charCodes
      ['q', 'u', 'p', 'g', '/',   'z', 'l', 'w', 'y', '\'', '=',
       'a', 'r', 'n', 's', 'd',   'f', 'h', 't', 'i', 'o', '-',
       'j', 'k', 'v', 'c', ';',   'x', 'm', 'b', ',', '.',
       'e']
    upper := charCodes
      ['Q', 'U', 'P', 'G', '?',   'Z', 'L', 'W', 'Y', '"', '+',
       'A', 'R', 'N', 'S', 'D',   'F', 'H', 'T', 'I', 'O', '_',
       'J', 'K', 'V', 'C', ':',   'X', 'M', 'B', '<', '>',
       'E'] }

/-- One layer swap (layout.rs, `Layer::swap`): read `layer[i]` into `temp`,
copy `layer[j]` into slot `i`, then write `temp` into slot `j`. -/
def layerSwap (l : List ℕ) (i j : ℕ) : List ℕ :=
  let temp := l.getD i 0
  let l1 := l.set i (l.getD j 0)
  l1.set j temp

/-- Layout swap as performed by `Layout::shuffle` and the permutation
iterator: the same position pair is swapped in both layers. -/
def layoutSwap (l : Layout) (i j : ℕ) : Layout :=
  { lower := layerSwap l.lower i j
    upper := layerSwap l.upper i j }

/-! ## Position map (layout.rs, `LayoutPosMap`) -/

/-- A position map sends a character code to its resolved keypress, or
`none` for an absent character (layout.rs, `LayoutPosMap([Option<KeyPress>; 128])`,
modelled as a function). -/
def PosMap : Type := ℕ → Option KeyPress

/-- Build the `KeyPress` recorded for character `c` at position `i`
(layout.rs, `Layer::fill_position_map`). -/
def mkKeyPress (c i : ℕ) : KeyPress :=
  { kc := c
    pos := i
    finger := KEY_FINGERS.getD i .Thumb
    hand := KEY_HANDS.getD i .Left
    row := KEY_ROWS.getD i .Top
    center := KEY_CENTER_COLUMN.getD i false }

/-- Point update of a position map slot. -/
def posMapSet (m : PosMap) (k : ℕ) (v : KeyPress) : PosMap :=
  fun x => if x = k then some v else m x

/-- Scan one layer in position order, recording every character below 128
(layout.rs, `Layer::fill_position_map`). -/
def fillPositionMap (layer : List ℕ) (m : PosMap) : PosMap :=
  (List.range layer.length).foldl
    (fun acc i =>
      let c := layer.getD i 0
      if c < 128 then posMapSet acc c (mkKeyPress c i) else acc) m

/-- Build a layout's position map: lower layer first, then upper layer,
so the upper layer overwrites on collisions (layout.rs,
`Layout::get_position_map`). -/
def getPositionMap (l : Layout) : PosMap :=
  fillPositionMap l.upper (fillPositionMap l.lower (fun _ => none))

/-- Character lookup (layout.rs, `LayoutPosMap::get_key_position`):
characters with code 128 or above are absent. -/
def getKeyPosition (m : PosMap) (kc : ℕ) : Option KeyPress :=
  if kc < 128 then m kc else none

/-! ## Claim C8: swap is an involution -/

theorem layerSwap_length (l : List ℕ) (i j : ℕ) :
    (layerSwap l i j).length = l.length := by
  simp [layerSwap]

theorem set_getD_self (l : List ℕ) (i : ℕ) (hi : i < l.length) :
    l.set i (l.getD i 0) = l := by
  apply List.ext_getElem
  · simp
  · intro k hk hk'
    rcases eq_or_ne k i with rfl | hne
    · rw [List.getElem_set_self]
      exact (List.getD_eq_getElem l 0 hi).symm ▸ rfl
    · rw [List.getElem_set_ne (by omega)]

theorem layerSwap_involution (l : List ℕ) (i j : ℕ)
    (hi : i < l.length) (hj : j < l.length) (hij : i ≠ j) :
    layerSwap (layerSwap l i j) i j = l := by
  have unf : ∀ x : List ℕ, layerSwap x i j = (x.set i (x.getD j 0)).set j (x.getD i 0) :=
    fun x => rfl
  have h1 : (layerSwap l i j).getD j 0 = l.getD i 0 := by
    rw [List.getD_eq_getElem _ 0 (by simpa [layerSwap_length] using hj)]
    simp only [layerSwap]
    rw [List.getElem_set_self]
  have h2 : (layerSwap l i j).getD i 0 = l.getD j 0 := by
    rw [List.getD_eq_getElem _ 0 (by simpa [layerSwap_length] using hi)]
    simp only [layerSwap]
    rw [List.getElem_set_ne (Ne.symm hij), List.getElem_set_self]
  rw [unf (layerSwap l i j), h1, h2, unf l]
  rw [List.set_comm _ _ _ (Ne.symm hij), List.set_set, List.set_set,
    set_getD_self l i hi, set_getD_self l j hj]

/-- Claim C8: for every well-formed Layout and positions i ≠ j in the valid
range, applying `swap(i, j)` to both layers twice restores the original
Layout exactly. -/
theorem C8_swap_involution (l : Layout) (i j : ℕ)
    (hwf : l.wf) (hi : i < 33) (hj : j < 33) (hij : i ≠ j) :
    layoutSwap (layoutSwap l i j) i j = l := by
  obtain ⟨hlo, hup⟩ := hwf
  simp only [layoutSwap]
  cases l
  congr 1 <;> apply layerSwap_involution <;> simp_all

/-- Witness for C8 at a concrete input: `INIT_LAYOUT` with the pair (0, 1). -/
theorem C8_swap_involution_witness :
    layoutSwap (layoutSwap INIT_LAYOUT 0 1) 0 1 = INIT_LAYOUT :=
  C8_swap_involution INIT_LAYOUT 0 1 ⟨by decide, by decide⟩
    (by decide) (by decide) (by decide)

/-! ## Permutation generator (layout.rs, `LayoutPermutations`) -/

/-- Offsets mapping indices into the swappable set to physical positions
(layout.rs, `LAYOUT_MASK_SWAP_OFFSETS`): position 10 and the thumb key 32
are excluded from swapping. -/
def LAYOUT_MASK_SWAP_OFFSETS : List ℕ :=
  [0, 0, 0, 0, 0,   0, 0, 0, 0, 0,
   1, 1, 1, 1, 1,   1, 1, 1, 1, 1, 1,
   1, 1, 1, 1, 1,   1, 1, 1, 1, 1]

/-- Size of the swappable set (layout.rs, `LAYOUT_MASK_NUM_SWAPPABLE`). -/
def LAYOUT_MASK_NUM_SWAPPABLE : ℕ := 31

/-- Offset lookup for a swappable-set index. -/
def offsetAt (i : ℕ) : ℕ :=
  LAYOUT_MASK_SWAP_OFFSETS.getD i 0

/-- The scan in `<LayoutPermutations as Iterator>::next` over `swap_idx`
(running index `i`): find the first entry `e` with `e + 1 <
LAYOUT_MASK_NUM_SWAPPABLE - i`, increment it, and report `(idx, val)` and
the updated vector. `none` when no entry can be incremented.  (For `i > 31`
the Rust `usize` subtraction would underflow, reachable only at depth 17 or
more; truncated subtraction leaves the condition false instead.  All claims
concern depths 0 and 1, where `i` is at most 1.) -/
def findIncr : List ℕ → ℕ → Option (ℕ × ℕ × List ℕ)
  | [], _ => none
  | e :: rest, i =>
    if e + 1 < LAYOUT_MASK_NUM_SWAPPABLE - i then
      some (i, e + 1, (e + 1) :: rest)
    else
      match findIncr rest (i + 1) with
      | some (idx, val, l) => some (idx, val, e :: l)
      | none => none

/-- The write-back loop `for i in 0..idx { swap_idx[i] = val + idx - i }`.
Writing past the end of the vector is an out-of-bounds panic, modelled as
`Except.error` (this is reached for depth 0, where `swap_idx` is empty and
the not-yet-started branch uses `idx = 1`). -/
def setFirstVals : ℕ → ℕ → List ℕ → Except Unit (List ℕ)
  | 0, _, l => .ok l
  | _ + 1, _, [] => .error ()
  | n + 1, v, _ :: xs => (setFirstVals n v xs).map (fun t => (v + n + 1) :: t)

/-- One step of the iterator's index state (`swap_idx`, `started`):
the pure part of `next`, before the emitted layout is built. -/
def stateNext (st : List ℕ × Bool) : Except Unit (Option (List ℕ × Bool)) :=
  if st.2 then
    match findIncr st.1 0 with
    | none => .ok none
    | some (idx, val, l) => (setFirstVals idx val l).map (fun l2 => some (l2, true))
  else
    (setFirstVals 1 0 st.1).map (fun l2 => some (l2, true))

/-- Apply the swap pairs recorded in `swap_idx` to a clone of the original
layout (`next`: `swap_left`/`swap_right` are the entries mapped through
`LAYOUT_MASK_SWAP_OFFSETS`, swapped in both layers, two entries at a
time). -/
def applyState : List ℕ → Layout → Layout
  | a :: b :: rest, l => applyState rest (layoutSwap l (a + offsetAt a) (b + offsetAt b))
  | _, l => l

/-- One full call of `next`: advance the index state and, when an item is
produced, emit the layout built from the updated state. -/
def permNext (base : Layout) (st : List ℕ × Bool) :
    Except Unit (Option ((List ℕ × Bool) × Layout)) :=
  (stateNext st).map (Option.map (fun st2 => (st2, applyState st2.1 base)))

/-- Error outcomes of draining the iterator: a panic inside `next`, or
exhaustion of the fuel bound (the latter never occurs with the fuel used
below, and an `ok` result always means the iterator genuinely finished). -/
inductive RunErr
  | panic
  | fuel
deriving DecidableEq

/-- Drain the iterator, collecting every emitted layout in order. -/
def permRun (base : Layout) : (List ℕ × Bool) → ℕ → Except RunErr (List Layout)
  | _, 0 => .error .fuel
  | st, f + 1 =>
    match permNext base st with
    | .error _ => .error .panic
    | .ok none => .ok []
    | .ok (some (st2, l)) => (permRun base st2 f).map (fun rest => l :: rest)

/-- Drain only the index states (the layout-free shadow of `permRun`). -/
def stateRun : (List ℕ × Bool) → ℕ → Except RunErr (List (List ℕ))
  | _, 0 => .error .fuel
  | st, f + 1 =>
    match stateNext st with
    | .error _ => .error .panic
    | .ok none => .ok []
    | .ok (some st2) => (stateRun st2 f).map (fun rest => st2.1 :: rest)

/-- Fuel bound: strictly more than the number of reachable index states. -/
def permFuel (depth : ℕ) : ℕ :=
  Nat.pow 33 (2 * depth) + 2

/-- The complete sequence of layouts emitted by
`LayoutPermutations::new(layout, depth)` (layout.rs): `swap_idx` starts as
`2 * depth` zeros with `started = false`. -/
def layoutPermutations (base : Layout) (depth : ℕ) : Except RunErr (List Layout) :=
  permRun base (List.replicate (2 * depth) 0, false) (permFuel depth)

/-- The iterator's control flow depends only on the index state, so the
emitted layouts are the collected states mapped through `applyState`. -/
theorem permRun_factor (base : Layout) (st : List ℕ × Bool) (f : ℕ) :
    permRun base st f = (stateRun st f).map (List.map (fun s => applyState s base)) := by
  induction f generalizing st with
  | zero => rfl
  | succ n ih =>
    simp only [permRun, stateRun, permNext]
    rcases h : stateNext st with e | o
    · simp [h, Except.map]
    · cases o with
      | none => simp [h, Except.map]
      | some st2 =>
        simp only [h, Except.map, Option.map_some']
        rw [ih st2]
        rcases h2 : stateRun st2 n with e2 | l2 <;> simp [Except.map, h2]

/-- Index-state enumeration at depth 1, in emission order: all pairs
`[a, b]` with `b < a ≤ 30`, grouped by increasing `b`. -/
def pairStates : List (List ℕ) :=
  (List.range 30).flatMap (fun b => (List.range (30 - b)).map (fun k => [b + k + 1, b]))

set_option maxRecDepth 40000 in
set_option maxHeartbeats 2000000 in
theorem stateRun_depth1 :
    stateRun (List.replicate (2 * 1) 0, false) (permFuel 1) = .ok pairStates := by
  decide

theorem pairStates_nodup : pairStates.Nodup := by
  rw [pairStates, List.nodup_flatMap]
  constructor
  · intro b hb
    refine List.Nodup.map ?_ (List.nodup_range _)
    intro k1 k2 hkeq
    simp only [List.cons.injEq, and_true] at hkeq
    omega
  · refine List.Pairwise.imp ?_ (List.pairwise_lt_range 30)
    intro b1 b2 hlt s hs1 hs2
    simp only [List.mem_map, List.mem_range] at hs1 hs2
    obtain ⟨k1, -, rfl⟩ := hs1
    obtain ⟨k2, -, h2⟩ := hs2
    simp only [List.cons.injEq] at h2
    omega

theorem pairStates_length : pairStates.length = Nat.choose 31 2 := by
  rw [pairStates, List.length_flatMap]
  decide

theorem pairStates_cover : ∀ a, a < 31 → ∀ b, b < a → [a, b] ∈ pairStates := by
  intro a ha b hb
  rw [pairStates, List.mem_flatMap]
  refine ⟨b, List.mem_range.mpr (by omega),
    List.mem_map.mpr ⟨a - b - 1, List.mem_range.mpr (by omega), ?_⟩⟩
  rw [show b + (a - b - 1) + 1 = a by omega]

theorem pairStates_shape :
    ∀ s ∈ pairStates, s.length = 2 ∧ s.getD 1 0 < s.getD 0 0 ∧ s.getD 0 0 < 31 := by
  intro s hs
  rw [pairStates, List.mem_flatMap] at hs
  obtain ⟨b, hb, hs⟩ := hs
  rw [List.mem_map] at hs
  obtain ⟨k, hk, rfl⟩ := hs
  rw [List.mem_range] at hb hk
  refine ⟨rfl, ?_, ?_⟩ <;> simp [List.getD] <;> omega

set_option maxRecDepth 8000 in
/-- Claim C1, counterexample: at depth 0 the generator does not emit the
single unmodified base layout; the first `next` call panics (out-of-bounds
write into the empty `swap_idx`). -/
theorem C1_counterexample :
    ¬ (layoutPermutations INIT_LAYOUT 0 = .ok [INIT_LAYOUT]) := by
  decide

/-- Claim C1, amended: at depth 0 the first `next` call panics instead of
emitting the base layout; at depth 1 the generator emits exactly
`C(31, 2) = 465` layouts, one for every unordered pair of distinct
swappable-set indices (all pairs `[a, b]` with `b < a < 31`, each exactly
once), and the layout emitted for a pair is the base with that pair's
mapped positions swapped in both layers. -/
theorem C1_theorem :
    (∀ base : Layout, layoutPermutations base 0 = .error .panic) ∧
    (∀ base : Layout,
      layoutPermutations base 1 = .ok (pairStates.map (fun s => applyState s base))) ∧
    pairStates.length = Nat.choose 31 2 ∧
    pairStates.Nodup ∧
    (∀ a, a < 31 → ∀ b, b < a → [a, b] ∈ pairStates) ∧
    (∀ s ∈ pairStates, s.length = 2 ∧ s.getD 1 0 < s.getD 0 0 ∧ s.getD 0 0 < 31) ∧
    (∀ (base : Layout) (a b : ℕ),
      applyState [a, b] base = layoutSwap base (a + offsetAt a) (b + offsetAt b)) := by
  refine ⟨fun base => rfl, fun base => ?_, pairStates_length, pairStates_nodup,
    pairStates_cover, pairStates_shape, fun base a b => rfl⟩
  show permRun base (List.replicate (2 * 1) 0, false) (permFuel 1) = _
  rw [permRun_factor, stateRun_depth1]
  rfl

/-- Witness for C1's amended theorem: the pair (1, 0) is enumerated. -/
theorem C1_witness : [1, 0] ∈ pairStates :=
  C1_theorem.2.2.2.2.1 1 (by decide) 0 (by decide)

/-! ## Roll-direction predicates (penalty.rs) -/

/-- Outward roll predicate (penalty.rs, `is_roll_out`). -/
def is_roll_out (curr prev : Finger) : Bool :=
  match curr with
  | .Thumb => false
  | .Index => prev == .Thumb
  | .Middle => prev == .Thumb || prev == .Index
  | .Ring => prev != .Pinky && prev != .Ring
  | .Pinky => prev != .Pinky

/-- Inward roll predicate (penalty.rs, `is_roll_in`). -/
def is_roll_in (curr prev : Finger) : Bool :=
  match curr with
  | .Thumb => prev != .Thumb
  | .Index => prev != .Thumb && prev != .Index
  | .Middle => prev == .Pinky || prev == .Ring
  | .Ring => prev == .Pinky
  | .Pinky => false

/-- Claim C10: the roll-direction predicates are mutually exclusive and
irreflexive, so the roll-out and roll-in rules never both fire on one
two-key context and the twist rule's outward and inward arms are disjoint. -/
theorem C10_roll_predicates_disjoint :
    ∀ curr prev third : Finger,
      (is_roll_out curr prev && is_roll_in curr prev) = false ∧
      is_roll_out curr curr = false ∧
      is_roll_in curr curr = false ∧
      (is_roll_out curr prev && is_roll_out prev third &&
        (is_roll_in curr prev && is_roll_in prev third)) = false := by
  intro curr prev third
  cases curr <;> cases prev <;> cases third <;> decide

/-! ## UTF-8 byte indexing

`prepare_quartad_list` records character positions from `chars().enumerate()`
but slices the corpus with `&string[range]`, which indexes BYTES and panics
when an index is not a character boundary.  `penalize` likewise slices with
byte indices derived from `str::len()`.  The embedding models a string as its
list of character codes and byte indexing through each character's UTF-8
encoding length. -/

/-- UTF-8 encoding length of a scalar value. -/
def utf8Len (c : ℕ) : ℕ :=
  if c < 128 then 1 else if c < 2048 then 2 else if c < 65536 then 3 else 4

/-- Byte length of a string (`str::len`). -/
def byteLen (s : List ℕ) : ℕ :=
  (s.map utf8Len).sum

/-- Drop the first `a` bytes of a string; error when `a` is not a character
boundary (the panic of `&s[a..]`). -/
def utf8Drop : List ℕ → ℕ → Except Unit (List ℕ)
  | s, 0 => .ok s
  | [], _ + 1 => .error ()
  | c :: cs, a + 1 =>
    if utf8Len c ≤ a + 1 then utf8Drop cs (a + 1 - utf8Len c) else .error ()

/-- Take the first `n` bytes of a string; error when `n` overruns the string
or splits a character. -/
def utf8Take : List ℕ → ℕ → Except Unit (List ℕ)
  | _, 0 => .ok []
  | [], _ + 1 => .error ()
  | c :: cs, n + 1 =>
    if utf8Len c ≤ n + 1 then (utf8Take cs (n + 1 - utf8Len c)).map (c :: ·)
    else .error ()

/-- The byte slice `&s[a..b]`: panics (errors) when `a > b`, when an index
exceeds the byte length, or when an index is not a character boundary. -/
def utf8Slice (s : List ℕ) (a b : ℕ) : Except Unit (List ℕ) :=
  if a ≤ b then
    match utf8Drop s a with
    | .error u => .error u
    | .ok t => utf8Take t (b - a)
  else .error ()

/-! ## Quartad list (penalty.rs, `prepare_quartad_list`) -/

/-- `quartads.entry(quartad).or_insert(0) += 1` on the count map, modelled
as an association list (first occurrence appended at the tail). -/
def quartadIncr : List (List ℕ × ℕ) → List ℕ → List (List ℕ × ℕ)
  | [], q => [(q, 1)]
  | (k, v) :: rest, q =>
    if k = q then (k, v + 1) :: rest else (k, v) :: quartadIncr rest q

/-- The scan loop of `prepare_quartad_list` over the enumerated characters.
Only `range.start` is carried: `range.end` is overwritten with `i + 1`
before every use.  A mapped character extends the window end to `i + 1` and
clamps the start to length at most 4 (`if range.end > 3 && range.start <
range.end - 4`); an unmapped character resets the window to `(i+1)..(i+1)`.
The recorded text is the byte slice `&string[range]` of the whole corpus,
taken at character-count indices — faithfully reproducing the source's
byte/character index mix-up. -/
def prepQuartadsGo (pm : PosMap) (s : List ℕ) :
    List (ℕ × ℕ) → ℕ → List (List ℕ × ℕ) → Except Unit (List (List ℕ × ℕ))
  | [], _, m => .ok m
  | (i, c) :: rest, start, m =>
    match getKeyPosition pm c with
    | some _ =>
      let e := i + 1
      let st := if 3 < e ∧ start < e - 4 then e - 4 else start
      match utf8Slice s st e with
      | .error u => .error u
      | .ok q => prepQuartadsGo pm s rest st (quartadIncr m q)
    | none => prepQuartadsGo pm s rest (i + 1) m

/-- `prepare_quartad_list` (penalty.rs): one scan over the corpus, counting
the trailing windows.  The result is the substring-to-count map, or an
error when a byte slice panics. -/
def prepare_quartad_list (s : List ℕ) (pm : PosMap) : Except Unit (List (List ℕ × ℕ)) :=
  prepQuartadsGo pm s s.enum 0 []

/-! ## Penalty engine (penalty.rs) -/

/-- The ordered rule catalog built by `init()` (penalty.rs): the `penalties`
vector passed to `calculate_penalty` by every caller (main.rs) is exactly
this list, so it is inlined here as the fixed catalog. -/
def PENALTY_NAMES : List String :=
  ["base", "same finger", "long jump hand", "long jump", "long jump consecutive",
   "pinky/ring twist", "roll reversal", "same hand", "alternating hand",
   "roll out", "roll in", "long jump sandwich", "twist"]

/-- Per-rule accumulated result (penalty.rs, `KeyPenaltyResult`): rule name,
subtotal, and the per-substring diagnostic map (an association list). -/
structure KeyPenaltyResult where
  name : String
  total : ℚ
  high_keys : List (List ℕ × ℚ)
deriving DecidableEq

/-- The result vector as initialized by `calculate_penalty` in detailed
mode: one zeroed entry per rule. -/
def initKPResults : List KeyPenaltyResult :=
  PENALTY_NAMES.map (fun n => { name := n, total := 0, high_keys := [] })

/-- Per-position base penalty (penalty.rs, `BASE_PENALTY`).  The source
literal lists 34 values; only indices 0 to 32 are ever read. -/
def BASE_PENALTY : List ℚ :=
  [3, 1, 1, 3/2, 3,   3, 3/2, 1, 1, 3, 4,
   1/2, 1/2, 0, 0, 3/2,   3/2, 0, 0, 1/2, 1/2, 2,
   2, 2, 3/2, 3/2, 5/2,   5/2, 3/2, 3/2, 2, 2,
   0, 0]

/-- `result[k].high_keys.entry(slice).or_insert(0.0) += p`. -/
def highKeysIncr : List (List ℕ × ℚ) → List ℕ → ℚ → List (List ℕ × ℚ)
  | [], sl, p => [(sl, p)]
  | (k, v) :: rest, sl, p =>
    if k = sl then (k, v + p) :: rest else (k, v) :: highKeysIncr rest sl p

/-- Add `p` to rule `k`'s subtotal and diagnostic map. -/
def updResult : List KeyPenaltyResult → ℕ → List ℕ → ℚ → List KeyPenaltyResult
  | [], _, _, _ => []
  | r :: rest, 0, sl, p =>
    { name := r.name, total := r.total + p, high_keys := highKeysIncr r.high_keys sl p } :: rest
  | r :: rest, k + 1, sl, p => r :: updResult rest k sl p

/-- One firing rule: always add the amount to the running total; in
detailed mode also add it to the rule's subtotal and diagnostic map
(the repeated `total += penalty; if detailed { ... }` blocks of
`penalize`). -/
def penStep (idx : ℕ) (amt : ℚ) (slice : List ℕ) (detailed : Bool)
    (st : ℚ × List KeyPenaltyResult) : ℚ × List KeyPenaltyResult :=
  (st.1 + amt, if detailed then updResult st.2 idx slice amt else st.2)

/-- A rule firing that first computes a byte slice (possibly panicking)
and then applies `penStep` (the `match ... { let slice = &string[..]; ... }`
shape shared by rules 6, 11, 12 and the four-key rules). -/
def fireSlice (s : List ℕ) (a b : ℕ) (idx : ℕ) (amt : ℚ) (detailed : Bool)
    (st : ℚ × List KeyPenaltyResult) : Except Unit (ℚ × List KeyPenaltyResult) := do
  let sl ← utf8Slice s a b
  .ok (penStep idx amt sl detailed st)

/-- The two-key block of `penalize` (rules 1-5, 9, 10), entered only when
current and previous key are on the same hand; `slice2 = &string[len-2..len]`
is computed at block entry.  Conditions and weights transcribed rule by
rule from the source. -/
def twoKeyRules (s : List ℕ) (cnt : ℚ) (curr o1 : KeyPress) (detailed : Bool)
    (st : ℚ × List KeyPenaltyResult) : Except Unit (ℚ × List KeyPenaltyResult) :=
  let len := byteLen s
  if curr.hand = o1.hand then do
    let slice2 ← utf8Slice s (len - 2) len
    let st := if curr.finger = o1.finger ∧ curr.pos ≠ o1.pos then
        penStep 1 ((5 + (if curr.center then (5 : ℚ) else 0)
          + (if o1.center then (5 : ℚ) else 0)) * cnt) slice2 detailed st
      else st
    let st := if curr.row = Row.Top ∧ o1.row = Row.Bottom ∨
        curr.row = Row.Bottom ∧ o1.row = Row.Top then
        penStep 2 (1 * cnt) slice2 detailed st
      else st
    let st := if curr.hand = o1.hand ∧ curr.finger = o1.finger ∧
        (curr.row = Row.Top ∧ o1.row = Row.Bottom ∨
         curr.row = Row.Bottom ∧ o1.row = Row.Top) then
        penStep 3 (10 * cnt) slice2 detailed st
      else st
    let st := if (curr.row = Row.Top ∧ o1.row = Row.Bottom ∨
        curr.row = Row.Bottom ∧ o1.row = Row.Top) ∧
        (curr.finger = .Ring ∧ o1.finger = .Pinky ∨
         curr.finger = .Pinky ∧ o1.finger = .Ring ∨
         curr.finger = .Middle ∧ o1.finger = .Ring ∨
         curr.finger = .Ring ∧ o1.finger = .Middle ∨
         curr.finger = .Index ∧ (o1.finger = .Middle ∨ o1.finger = .Ring) ∧
           curr.row = Row.Top ∧ o1.row = Row.Bottom) then
        penStep 4 (5 * cnt) slice2 detailed st
      else st
    let st := if curr.finger = .Ring ∧ o1.finger = .Pinky ∧
        (curr.row = Row.Home ∧ o1.row = Row.Top ∨
         curr.row = Row.Bottom ∧ o1.row = Row.Top) ∨
        curr.finger = .Pinky ∧ o1.finger = .Ring ∧
        (curr.row = Row.Top ∧ o1.row = Row.Home ∨
         curr.row = Row.Top ∧ o1.row = Row.Bottom) then
        penStep 5 (10 * cnt) slice2 detailed st
      else st
    let st := if curr.hand = o1.hand ∧ o1.finger ≠ .Thumb ∧
        is_roll_out curr.finger o1.finger then
        penStep 9 ((1 / 8) * cnt) slice2 detailed st
      else st
    let st := if curr.hand = o1.hand ∧ is_roll_in curr.finger o1.finger then
        penStep 10 ((-1 / 8) * cnt) slice2 detailed st
      else st
    .ok st
  else .ok st

/-- The three-key block of `penalize`: rules 6 and 12 under the
three-same-hand guard (their `slice3` is computed when the rule fires,
before the detailed check), then rule 11 (long jump sandwich), whose
`slice3` is computed only in detailed mode. -/
def threeKeyRules (s : List ℕ) (cnt : ℚ) (curr o1 o2 : KeyPress) (detailed : Bool)
    (st : ℚ × List KeyPenaltyResult) : Except Unit (ℚ × List KeyPenaltyResult) :=
  let len := byteLen s
  let part1 : Except Unit (ℚ × List KeyPenaltyResult) :=
    if curr.hand = o1.hand ∧ o1.hand = o2.hand then do
      let st ←
        (if curr.finger = .Middle ∧ o1.finger = .Pinky ∧ o2.finger = .Ring ∨
            curr.finger = .Ring ∧ o1.finger = .Pinky ∧ o2.finger = .Middle then
          fireSlice s (len - 3) len 6 (20 * cnt) detailed st
        else .ok st)
      if (curr.row = Row.Top ∧ o1.row = Row.Home ∧ o2.row = Row.Bottom ∨
          curr.row = Row.Bottom ∧ o1.row = Row.Home ∧ o2.row = Row.Top) ∧
          (is_roll_out curr.finger o1.finger ∧ is_roll_out o1.finger o2.finger ∨
           is_roll_in curr.finger o1.finger ∧ is_roll_in o1.finger o2.finger) then
        fireSlice s (len - 3) len 12 (10 * cnt) detailed st
      else .ok st
    else .ok st
  do
    let st ← part1
    if curr.hand = o2.hand ∧ curr.finger = o2.finger ∧
        (curr.row = Row.Top ∧ o2.row = Row.Bottom ∨
         curr.row = Row.Bottom ∧ o2.row = Row.Top) then
      if detailed then fireSlice s (len - 3) len 11 (3 * cnt) detailed st
      else .ok (st.1 + 3 * cnt, st.2)
    else .ok st

/-- The four-key block of `penalize`: rule 7 (same hand) or rule 8
(alternating hand); `slice4` is computed when a branch fires. -/
def fourKeyRules (s : List ℕ) (cnt : ℚ) (curr o1 o2 o3 : KeyPress) (detailed : Bool)
    (st : ℚ × List KeyPenaltyResult) : Except Unit (ℚ × List KeyPenaltyResult) :=
  let len := byteLen s
  if curr.hand = o1.hand ∧ o1.hand = o2.hand ∧ o2.hand = o3.hand then
    fireSlice s (len - 4) len 7 ((1 / 2) * cnt) detailed st
  else if curr.hand ≠ o1.hand ∧ o1.hand ≠ o2.hand ∧ o2.hand ≠ o3.hand then
    fireSlice s (len - 4) len 8 ((1 / 2) * cnt) detailed st
  else .ok st

/-- `penalize` (penalty.rs): the base penalty (rule 0, `slice1 =
&string[len-1..len]` computed unconditionally), then the two-, three- and
four-key blocks, each skipped with an early return when the corresponding
predecessor is absent. -/
def penalize (s : List ℕ) (count : ℕ) (curr : KeyPress)
    (old1 old2 old3 : Option KeyPress) (rs : List KeyPenaltyResult)
    (detailed : Bool) : Except Unit (ℚ × List KeyPenaltyResult) :=
  let len := byteLen s
  let cnt : ℚ := (count : ℚ)
  do
    let slice1 ← utf8Slice s (len - 1) len
    let st := penStep 0 (BASE_PENALTY.getD curr.pos 0 * cnt) slice1 detailed (0, rs)
    match old1 with
    | none => .ok st
    | some o1 => do
      let st ← twoKeyRules s cnt curr o1 detailed st
      match old2 with
      | none => .ok st
      | some o2 => do
        let st ← threeKeyRules s cnt curr o1 o2 detailed st
        match old3 with
        | none => .ok st
        | some o3 => fourKeyRules s cnt curr o1 o2 o3 detailed st

/-- `penalty_for_quartad` (penalty.rs): resolve the current key and up to
three predecessors reading the string back to front; an unmapped current
key contributes zero and leaves the results untouched; the empty string
hits `panic!("unreachable")`. -/
def penalty_for_quartad (s : List ℕ) (count : ℕ) (pm : PosMap)
    (rs : List KeyPenaltyResult) (detailed : Bool) :
    Except Unit (ℚ × List KeyPenaltyResult) :=
  match s.reverse with
  | [] => .error ()
  | c0 :: rest =>
    match getKeyPosition pm c0 with
    | none => .ok (0, rs)
    | some curr =>
      let old1 := match rest.get? 0 with
        | some c => getKeyPosition pm c
        | none => none
      let old2 := match rest.get? 1 with
        | some c => getKeyPosition pm c
        | none => none
      let old3 := match rest.get? 2 with
        | some c => getKeyPosition pm c
        | none => none
      penalize s count curr old1 old2 old3 rs detailed

/-- The accumulation loop of `calculate_penalty`:
`total += penalty_for_quartad(...)` over the count map. -/
def quartadFold (pm : PosMap) (detailed : Bool) :
    List (List ℕ × ℕ) → ℚ × List KeyPenaltyResult →
    Except Unit (ℚ × List KeyPenaltyResult)
  | [], st => .ok st
  | (s, cnt) :: rest, st =>
    match penalty_for_quartad s cnt pm st.2 detailed with
    | .error u => .error u
    | .ok r => quartadFold pm detailed rest (st.1 + r.1, r.2)

/-- `total / (len as f64)`: an IEEE division whose zero-denominator result
is non-finite (NaN for a zero numerator, infinite otherwise), represented
by `none`; a nonzero denominator gives the exact finite quotient. -/
def f64_div (x : ℚ) (n : ℕ) : Option ℚ :=
  if n = 0 then none else some (x / (n : ℚ))

/-- `calculate_penalty` (penalty.rs): initialize one zeroed result per rule
in detailed mode (an empty vector otherwise), rebuild the position map of
the candidate layout, accumulate over all quartads, and return
`(total, total / len, results)`.  There is no guard on `len`. -/
def calculate_penalty (quartads : List (List ℕ × ℕ)) (len : ℕ) (layout : Layout)
    (detailed : Bool) : Except Unit (ℚ × Option ℚ × List KeyPenaltyResult) :=
  let rs0 := if detailed then initKPResults else []
  let pm := getPositionMap layout
  do
    let p ← quartadFold pm detailed quartads (0, rs0)
    .ok (p.1, f64_div p.1 len, p.2)

theorem except_bind_ok {A B : Type} {m : Except Unit A} {f : A → Except Unit B} {b : B}
    (h : (m >>= f) = .ok b) : ∃ a, m = .ok a ∧ f a = .ok b := by
  cases m with
  | error e => simp [Bind.bind, Except.bind] at h
  | ok a => exact ⟨a, rfl, by simpa [Bind.bind, Except.bind] using h⟩

/-! ## Claims C4 and C5: quartad-window behavior -/

/-- Claim C4, evaluation: over the reference position map of `INIT_LAYOUT`,
the corpus "aaaa" yields exactly the windows "a", "aa", "aaa", "aaaa", each
counted once, and "ab#cd" (with '#' unmapped) resets the window so that no
recorded quartad spans the '#'.  But on the failing input "é#ab" (the
character codes 233, 35, 97, 98: 'é' is two UTF-8 bytes) the byte/character
index mix-up makes the code record the quartads "#" and "#a", which contain
the unmapped character '#' — contradicting the claim's invariant that no
counted quartad ever spans an unmapped character. -/
theorem C4_quartad_window_evaluations :
    prepare_quartad_list (charCodes ['a', 'a', 'a', 'a']) (getPositionMap INIT_LAYOUT) =
      .ok [(charCodes ['a'], 1), (charCodes ['a', 'a'], 1),
           (charCodes ['a', 'a', 'a'], 1), (charCodes ['a', 'a', 'a', 'a'], 1)] ∧
    prepare_quartad_list (charCodes ['a', 'b', '#', 'c', 'd']) (getPositionMap INIT_LAYOUT) =
      .ok [(charCodes ['a'], 1), (charCodes ['a', 'b'], 1),
           (charCodes ['c'], 1), (charCodes ['c', 'd'], 1)] ∧
    prepare_quartad_list [233, 35, 97, 98] (getPositionMap INIT_LAYOUT) =
      .ok [([35], 1), ([35, 97], 1)] := by
  refine ⟨by decide, by decide, by decide⟩

/-- Claim C5, evaluation at the failing input: on the corpus "éa" (character
codes 233, 97) `prepare_quartad_list` panics — the window over character
positions is sliced at byte index 1, which falls inside the two-byte
character 'é' — so quartad construction is not total on all input
strings. -/
theorem C5_nonascii_corpus_panics :
    prepare_quartad_list [233, 97] (getPositionMap INIT_LAYOUT) = .error () := by
  decide

/-! ## Claim C2: no empty-corpus guard -/

/-- The behavior claimed by the spec for an empty corpus: scoring a corpus
of length 0 yields a defined error rather than an undefined or NaN scaled
score (the `none` marker of `f64_div`). -/
def EmptyCorpusGuardedClaim : Prop :=
  ∀ (quartads : List (List ℕ × ℕ)) (layout : Layout) (detailed : Bool)
    (r : ℚ × Option ℚ × List KeyPenaltyResult),
    calculate_penalty quartads 0 layout detailed = .ok r → r.2.1 ≠ none

/-- Claim C2, counterexample: `calculate_penalty` has no empty-corpus guard;
at corpus length 0 it returns normally with the scaled score `total / 0`,
the non-finite IEEE marker, not a defined error. -/
theorem C2_counterexample : ¬ EmptyCorpusGuardedClaim := fun h =>
  h [] INIT_LAYOUT true (0, f64_div 0 0, initKPResults) rfl rfl

/-- Claim C2, amended: `calculate_penalty` performs no division-by-zero
guard: whenever it returns, the scaled score is `total / len` for a nonzero
corpus length and the undefined (NaN or infinite) marker for corpus length
0. -/
theorem C2_no_empty_corpus_guard :
    ∀ (quartads : List (List ℕ × ℕ)) (len : ℕ) (layout : Layout) (detailed : Bool)
      (r : ℚ × Option ℚ × List KeyPenaltyResult),
      calculate_penalty quartads len layout detailed = .ok r →
      r.2.1 = if len = 0 then none else some (r.1 / (len : ℚ)) := by
  intro quartads len layout detailed r h
  unfold calculate_penalty at h
  dsimp only at h
  obtain ⟨p, -, h⟩ := except_bind_ok h
  injection h with h2
  subst h2
  rfl

/-- Witness for C2's amended theorem at a concrete input: the empty quartad
list, corpus length 0, `INIT_LAYOUT`, detailed mode. -/
theorem C2_no_empty_corpus_guard_witness :
    ((0 : ℚ), f64_div 0 0, initKPResults).2.1
      = if (0 : ℕ) = 0 then none else some ((0 : ℚ) / ((0 : ℕ) : ℚ)) :=
  C2_no_empty_corpus_guard [] 0 INIT_LAYOUT true (0, f64_div 0 0, initKPResults) rfl

/-! ## Claim C6: detailed subtotals sum to the grand total -/

/-- Sum of the per-rule subtotals of a result vector. -/
def sumTotals (rs : List KeyPenaltyResult) : ℚ :=
  (rs.map KeyPenaltyResult.total).sum

/-- Invariant tied to a constant `c`: the result vector still has one entry
per rule and its subtotal sum exceeds `c` by exactly the running total. -/
def SumInv (c : ℚ) (st : ℚ × List KeyPenaltyResult) : Prop :=
  st.2.length = 13 ∧ sumTotals st.2 = c + st.1

theorem updResult_length (rs : List KeyPenaltyResult) (k : ℕ) (sl : List ℕ) (p : ℚ) :
    (updResult rs k sl p).length = rs.length := by
  induction rs generalizing k with
  | nil => cases k <;> rfl
  | cons r rest ih =>
    cases k with
    | zero => rfl
    | succ n => simp [updResult, ih]

theorem sumTotals_updResult (rs : List KeyPenaltyResult) (k : ℕ) (sl : List ℕ) (p : ℚ)
    (hk : k < rs.length) : sumTotals (updResult rs k sl p) = sumTotals rs + p := by
  induction rs generalizing k with
  | nil => simp at hk
  | cons r rest ih =>
    cases k with
    | zero =>
      simp only [updResult, sumTotals, List.map_cons, List.sum_cons]
      ring
    | succ n =>
      have hn : n < rest.length := by simpa using Nat.lt_of_succ_lt_succ (by simpa using hk)
      simp only [updResult, sumTotals, List.map_cons, List.sum_cons] at *
      rw [ih n hn]
      ring

theorem penStep_inv {c : ℚ} {k : ℕ} {amt : ℚ} {sl : List ℕ}
    {st : ℚ × List KeyPenaltyResult} (hk : k < 13) (h : SumInv c st) :
    SumInv c (penStep k amt sl true st) := by
  obtain ⟨hlen, hsum⟩ := h
  constructor
  · simp [penStep, updResult_length, hlen]
  · simp only [penStep, if_true]
    rw [sumTotals_updResult _ _ _ _ (by omega), hsum]
    ring

theorem ite_inv {c : ℚ} {k : ℕ} {amt : ℚ} {sl : List ℕ}
    {st : ℚ × List KeyPenaltyResult} (cond : Prop) [Decidable cond]
    (hk : k < 13) (h : SumInv c st) :
    SumInv c (if cond then penStep k amt sl true st else st) := by
  split
  · exact penStep_inv hk h
  · exact h

theorem fireSlice_inv {s : List ℕ} {a b : ℕ} {k : ℕ} {amt : ℚ} {c : ℚ}
    {st out : ℚ × List KeyPenaltyResult} (hk : k < 13)
    (h : fireSlice s a b k amt true st = .ok out) (hp : SumInv c st) :
    SumInv c out := by
  obtain ⟨sl, -, h2⟩ := except_bind_ok h
  injection h2 with h3
  subst h3
  exact penStep_inv hk hp

theorem iteFire_inv {s : List ℕ} {a b : ℕ} {k : ℕ} {amt : ℚ} {c : ℚ}
    {st out : ℚ × List KeyPenaltyResult} (cond : Prop) [Decidable cond] (hk : k < 13)
    (h : (if cond then fireSlice s a b k amt true st else .ok st) = .ok out)
    (hp : SumInv c st) : SumInv c out := by
  split at h
  · exact fireSlice_inv hk h hp
  · injection h with h2
    subst h2
    exact hp

theorem twoKeyRules_inv {s : List ℕ} {cnt : ℚ} {curr o1 : KeyPress} {c : ℚ}
    {st out : ℚ × List KeyPenaltyResult}
    (h : twoKeyRules s cnt curr o1 true st = .ok out) (hp : SumInv c st) :
    SumInv c out := by
  unfold twoKeyRules at h
  split at h
  · obtain ⟨sl2, -, h2⟩ := except_bind_ok h
    injection h2 with h3
    subst h3
    exact ite_inv _ (by omega) (ite_inv _ (by omega) (ite_inv _ (by omega)
      (ite_inv _ (by omega) (ite_inv _ (by omega) (ite_inv _ (by omega)
        (ite_inv _ (by omega) hp))))))
  · injection h with h2
    subst h2
    exact hp

theorem threeKeyRules_inv {s : List ℕ} {cnt : ℚ} {curr o1 o2 : KeyPress} {c : ℚ}
    {st out : ℚ × List KeyPenaltyResult}
    (h : threeKeyRules s cnt curr o1 o2 true st = .ok out) (hp : SumInv c st) :
    SumInv c out := by
  unfold threeKeyRules at h
  dsimp only at h
  obtain ⟨st1, hst1, h⟩ := except_bind_ok h
  have hp1 : SumInv c st1 := by
    split at hst1
    · obtain ⟨st6, hst6, hst1⟩ := except_bind_ok hst1
      have hp6 : SumInv c st6 := iteFire_inv _ (by omega) hst6 hp
      exact iteFire_inv _ (by omega) hst1 hp6
    · injection hst1 with h2
      subst h2
      exact hp
  split at h
  · rw [if_pos rfl] at h
    exact fireSlice_inv (by omega) h hp1
  · injection h with h2
    subst h2
    exact hp1

theorem fourKeyRules_inv {s : List ℕ} {cnt : ℚ} {curr o1 o2 o3 : KeyPress} {c : ℚ}
    {st out : ℚ × List KeyPenaltyResult}
    (h : fourKeyRules s cnt curr o1 o2 o3 true st = .ok out) (hp : SumInv c st) :
    SumInv c out := by
  unfold fourKeyRules at h
  dsimp only at h
  split at h
  · exact fireSlice_inv (by omega) h hp
  · split at h
    · exact fireSlice_inv (by omega) h hp
    · injection h with h2
      subst h2
      exact hp

theorem penalize_inv {s : List ℕ} {count : ℕ} {curr : KeyPress}
    {old1 old2 old3 : Option KeyPress} {rs : List KeyPenaltyResult}
    {out : ℚ × List KeyPenaltyResult}
    (h : penalize s count curr old1 old2 old3 rs true = .ok out)
    (hlen : rs.length = 13) :
    out.2.length = 13 ∧ sumTotals out.2 = sumTotals rs + out.1 := by
  have hp0 : SumInv (sumTotals rs) (0, rs) := ⟨hlen, by simp⟩
  unfold penalize at h
  dsimp only at h
  obtain ⟨sl1, -, h⟩ := except_bind_ok h
  have hp1 : SumInv (sumTotals rs)
      (penStep 0 (BASE_PENALTY.getD curr.pos 0 * (count : ℚ)) sl1 true (0, rs)) :=
    penStep_inv (by omega) hp0
  cases old1 with
  | none =>
    injection h with h2
    subst h2
    exact hp1
  | some o1 =>
    obtain ⟨st2, hst2, h⟩ := except_bind_ok h
    have hp2 : SumInv (sumTotals rs) st2 := twoKeyRules_inv hst2 hp1
    cases old2 with
    | none =>
      injection h with h2
      subst h2
      exact hp2
    | some o2 =>
      obtain ⟨st3, hst3, h⟩ := except_bind_ok h
      have hp3 : SumInv (sumTotals rs) st3 := threeKeyRules_inv hst3 hp2
      cases old3 with
      | none =>
        injection h with h2
        subst h2
        exact hp3
      | some o3 =>
        exact fourKeyRules_inv h hp3

theorem penalty_for_quartad_inv {s : List ℕ} {count : ℕ} {pm : PosMap}
    {rs : List KeyPenaltyResult} {out : ℚ × List KeyPenaltyResult}
    (h : penalty_for_quartad s count pm rs true = .ok out)
    (hlen : rs.length = 13) :
    out.2.length = 13 ∧ sumTotals out.2 = sumTotals rs + out.1 := by
  unfold penalty_for_quartad at h
  dsimp only at h
  split at h
  · exact absurd h (by simp)
  next c0 rest =>
    split at h
    · injection h with h'
      subst h'
      exact ⟨hlen, by simp⟩
    · exact penalize_inv h hlen

theorem quartadFold_inv {pm : PosMap} {c : ℚ} :
    ∀ {qs : List (List ℕ × ℕ)} {st out : ℚ × List KeyPenaltyResult},
      quartadFold pm true qs st = .ok out → SumInv c st → SumInv c out := by
  intro qs
  induction qs with
  | nil =>
    intro st out h hp
    injection h with h'
    subst h'
    exact hp
  | cons q rest ih =>
    intro st out h hp
    obtain ⟨sq, cq⟩ := q
    unfold quartadFold at h
    split at h
    · exact absurd h (by simp)
    next r hr =>
      have := penalty_for_quartad_inv hr hp.1
      refine ih h ⟨this.1, ?_⟩
      rw [this.2, hp.2]
      ring

theorem sumTotals_init : sumTotals initKPResults = 0 := by
  simp [sumTotals, initKPResults, PENALTY_NAMES]

/-- Claim C6: in detailed mode the per-rule subtotals returned by
`calculate_penalty` sum exactly to the returned grand total, for every
quartad list, corpus length and layout. -/
theorem C6_subtotals_sum_to_total :
    ∀ (quartads : List (List ℕ × ℕ)) (len : ℕ) (layout : Layout) (t : ℚ)
      (sc : Option ℚ) (rs : List KeyPenaltyResult),
      calculate_penalty quartads len layout true = .ok (t, sc, rs) →
      sumTotals rs = t := by
  intro quartads len layout t sc rs h
  unfold calculate_penalty at h
  dsimp only at h
  obtain ⟨p, hfold, h⟩ := except_bind_ok h
  have hinv : SumInv 0 p :=
    quartadFold_inv hfold ⟨rfl, by simp [sumTotals_init]⟩
  injection h with h2
  have ht : t = p.1 := congrArg Prod.fst h2.symm
  have hrs : rs = p.2 := congrArg (fun q => q.2.2) h2.symm
  subst ht
  subst hrs
  have := hinv.2
  rw [this]
  ring

/-- Witness for C6 at a concrete input: the empty quartad list, corpus
length 1, `INIT_LAYOUT`; the returned subtotals are the zeroed initial
vector and the total is 0. -/
theorem C6_subtotals_sum_to_total_witness : sumTotals initKPResults = 0 :=
  C6_subtotals_sum_to_total [] 1 INIT_LAYOUT 0 (f64_div 0 1) initKPResults rfl

/-! ## Annealing controller (annealing.rs) -/

/-- Base temperature (annealing.rs, `T0`). -/
def T0 : ℝ := 1.5

/-- Cooling constant (annealing.rs, `K`). -/
def K : ℝ := 10.0

/-- Base acceptance probability (annealing.rs, `P0`). -/
def P0 : ℝ := 1.0

/-- Iteration budget (annealing.rs, `N`). -/
def N : ℕ := 10000

/-- Precomputed ratio (annealing.rs, `KN = K / N`). -/
noncomputable def KN : ℝ := K / (N : ℝ)

/-- Temperature schedule (annealing.rs, `temperature`):
`T(i) = T0 * exp(-i * K / N)`. -/
noncomputable def temperature (i : ℕ) : ℝ :=
  T0 * Real.exp (-(i : ℝ) * KN)

/-- Acceptance threshold (annealing.rs, `cutoff_p`):
`p(dE, i) = P0 * exp(-dE / T(i))`. -/
noncomputable def cutoff_p (de : ℝ) (i : ℕ) : ℝ :=
  P0 * Real.exp (-de / temperature i)

/-- Acceptance rule (annealing.rs, `accept_transition`): negative deltas are
accepted unconditionally; otherwise the uniform draw `r` (from
`thread_rng().next_f64()`, which lies in `[0, 1)`) is compared against the
threshold.  The draw is made explicit as the argument `r`. -/
def accept_transition (de : ℝ) (i : ℕ) (r : ℝ) : Prop :=
  if de < 0 then True else r < cutoff_p de i

theorem temperature_pos (n : ℕ) : 0 < temperature n :=
  mul_pos (by norm_num [T0]) (Real.exp_pos _)

/-- Claim C3: a negative score delta is accepted for every draw and every
iteration index, and for a fixed positive delta the acceptance threshold
`cutoff_p` strictly decreases as the iteration index increases. -/
theorem C3_accept_transition :
    (∀ (de : ℝ) (i : ℕ) (r : ℝ), de < 0 → accept_transition de i r) ∧
    (∀ (de : ℝ) (i j : ℕ), 0 < de → i < j → cutoff_p de j < cutoff_p de i) := by
  constructor
  · intro de i r h
    simp [accept_transition, h]
  · intro de i j hde hij
    have hKN : (0 : ℝ) < KN := by norm_num [KN, K, N]
    have hTlt : temperature j < temperature i := by
      apply mul_lt_mul_of_pos_left _ (by norm_num [T0])
      apply Real.exp_lt_exp.mpr
      have hcast : (i : ℝ) < j := by exact_mod_cast hij
      nlinarith
    have hdiv : de / temperature i < de / temperature j :=
      div_lt_div_of_pos_left hde (temperature_pos j) hTlt
    simp only [cutoff_p, P0]
    rw [show (1.0 : ℝ) = 1 by norm_num, one_mul, one_mul, neg_div, neg_div]
    exact Real.exp_lt_exp.mpr (neg_lt_neg hdiv)

/-- Witness for C3 at concrete inputs: delta -1 is accepted at iteration 1
with draw 1/2, and for delta 1 the threshold at iteration 2 is below the
threshold at iteration 1. -/
theorem C3_accept_transition_witness :
    accept_transition (-1) 1 (1 / 2) ∧ cutoff_p 1 2 < cutoff_p 1 1 :=
  ⟨C3_accept_transition.1 (-1) 1 (1 / 2) (neg_lt_zero.mpr one_pos),
   C3_accept_transition.2 1 1 2 one_pos one_lt_two⟩

/-- Claim C9: a zero score delta takes the probabilistic branch, where the
threshold equals `P0 * exp(0) = 1`, so every draw in `[0, 1)` is accepted. -/
theorem C9_zero_delta_accepted :
    ∀ (i : ℕ) (r : ℝ), 0 ≤ r → r < 1 →
      cutoff_p 0 i = 1 ∧ accept_transition 0 i r := by
  intro i r hr0 hr1
  have hcut : cutoff_p 0 i = 1 := by
    simp only [cutoff_p, P0, neg_zero, zero_div, Real.exp_zero]
    norm_num
  refine ⟨hcut, ?_⟩
  simp only [accept_transition]
  rw [if_neg (lt_irrefl (0 : ℝ))]
  rw [hcut]
  exact hr1

/-- Witness for C9 at concrete inputs: iteration 1, draw 1/2. -/
theorem C9_zero_delta_accepted_witness :
    cutoff_p 0 1 = 1 ∧ accept_transition 0 1 (1 / 2) :=
  C9_zero_delta_accepted 1 (1 / 2) one_half_pos.le one_half_lt_one

/-! ## Top-K tracker (simulator.rs) -/

/-- One tracked best layout (simulator.rs, `BestLayoutsEntry`): an immutable
snapshot of the layout with its total and scaled penalties and the optional
breakdown. -/
structure BestLayoutsEntry where
  layout : Layout
  total_penalty : ℚ
  scaled_penalty : ℚ
  penalties : List KeyPenaltyResult

/-- Entry comparison (simulator.rs, `BestLayoutsEntry::cmp`): the partial
comparison of the scaled penalties, with the incomparable (NaN) case mapped
to `Equal`; on rationals the comparison is total, so the `None` arm is
unreachable. -/
def BestLayoutsEntry.cmpOrd (a b : BestLayoutsEntry) : Ordering :=
  if a.scaled_penalty < b.scaled_penalty then .lt
  else if b.scaled_penalty < a.scaled_penalty then .gt
  else .eq

/-- Ordered insertion (simulator.rs, `list_insert_ordered`): the cursor
advances past every element the new entry does not compare `Less` than, and
the entry is inserted before the first strictly larger element (after all
equal ones). -/
def list_insert_ordered : List BestLayoutsEntry → BestLayoutsEntry → List BestLayoutsEntry
  | [], e => [e]
  | x :: xs, e =>
    if e.cmpOrd x = Ordering.lt then e :: x :: xs
    else x :: list_insert_ordered xs e

/-- The eviction loop of `simulate` and `refine`:
`while best_layouts.len() > top_layouts { best_layouts.pop_back(); }`. -/
def popBackWhile (cap : ℕ) (l : List BestLayoutsEntry) : List BestLayoutsEntry :=
  if _h : l.length ≤ cap then l
  else popBackWhile cap l.dropLast
termination_by l.length
decreasing_by simp [List.length_dropLast]; omega

/-- One insert-then-truncate step of the best-layouts tracker. -/
def trackStep (cap : ℕ) (l : List BestLayoutsEntry) (e : BestLayoutsEntry) :
    List BestLayoutsEntry :=
  popBackWhile cap (list_insert_ordered l e)

/-- Ascending order on tracked entries, by scaled penalty. -/
def scaledLE (a b : BestLayoutsEntry) : Prop :=
  a.scaled_penalty ≤ b.scaled_penalty

theorem cmpOrd_lt_iff (a b : BestLayoutsEntry) :
    a.cmpOrd b = Ordering.lt ↔ a.scaled_penalty < b.scaled_penalty := by
  unfold BestLayoutsEntry.cmpOrd
  split
  · simp_all
  · split <;> simp_all

theorem mem_insert_ordered {l : List BestLayoutsEntry} {e x : BestLayoutsEntry} :
    x ∈ list_insert_ordered l e ↔ x = e ∨ x ∈ l := by
  induction l with
  | nil => simp [list_insert_ordered]
  | cons y ys ih =>
    unfold list_insert_ordered
    split
    · simp [List.mem_cons]
    · simp [List.mem_cons, ih]
      tauto

theorem insert_ordered_sorted {l : List BestLayoutsEntry} {e : BestLayoutsEntry}
    (h : List.Sorted scaledLE l) : List.Sorted scaledLE (list_insert_ordered l e) := by
  induction l with
  | nil => simp [list_insert_ordered]
  | cons x xs ih =>
    rw [List.sorted_cons] at h
    obtain ⟨hx, hxs⟩ := h
    unfold list_insert_ordered
    split
    next hlt =>
      rw [cmpOrd_lt_iff] at hlt
      rw [List.sorted_cons]
      constructor
      · intro b hb
        rcases List.mem_cons.mp hb with rfl | hb
        · exact le_of_lt hlt
        · exact le_trans (le_of_lt hlt) (hx b hb)
      · rw [List.sorted_cons]
        exact ⟨hx, hxs⟩
    next hnlt =>
      rw [cmpOrd_lt_iff] at hnlt
      rw [List.sorted_cons]
      refine ⟨?_, ih hxs⟩
      intro b hb
      rcases mem_insert_ordered.mp hb with rfl | hb
      · exact le_of_not_lt hnlt
      · exact hx b hb

theorem popBackWhile_length (cap : ℕ) (l : List BestLayoutsEntry) :
    (popBackWhile cap l).length ≤ cap := by
  have H : ∀ (n : ℕ) (l : List BestLayoutsEntry), l.length ≤ n →
      (popBackWhile cap l).length ≤ cap := by
    intro n
    induction n with
    | zero =>
      intro l hl
      unfold popBackWhile
      split
      · assumption
      · omega
    | succ n ih =>
      intro l hl
      unfold popBackWhile
      split
      · assumption
      · refine ih _ ?_
        simp only [List.length_dropLast]
        omega
  exact H l.length l le_rfl

theorem popBackWhile_sorted (cap : ℕ) (l : List BestLayoutsEntry)
    (h : List.Sorted scaledLE l) : List.Sorted scaledLE (popBackWhile cap l) := by
  have H : ∀ (n : ℕ) (l : List BestLayoutsEntry), l.length ≤ n →
      List.Sorted scaledLE l → List.Sorted scaledLE (popBackWhile cap l) := by
    intro n
    induction n with
    | zero =>
      intro l hl hs
      unfold popBackWhile
      split
      · assumption
      · omega
    | succ n ih =>
      intro l hl hs
      unfold popBackWhile
      split
      · assumption
      · refine ih _ ?_ (List.Pairwise.sublist (List.dropLast_sublist _) hs)
        simp only [List.length_dropLast]
        omega
  exact H l.length l le_rfl h

/-- Claim C7: starting from the empty tracker, after any sequence of
insert-then-truncate steps (ordered insertion via `list_insert_ordered`
followed by popping the tail while the length exceeds the capacity) the
tracker never holds more than `cap` entries and is sorted ascending by
scaled penalty at every observation point (every prefix of the entry
sequence is an instance of this statement). -/
theorem C7_tracker_bounded_and_sorted (cap : ℕ) (entries : List BestLayoutsEntry) :
    (entries.foldl (trackStep cap) []).length ≤ cap ∧
    List.Sorted scaledLE (entries.foldl (trackStep cap) []) := by
  suffices H : ∀ (es : List BestLayoutsEntry) (l : List BestLayoutsEntry),
      List.Sorted scaledLE l → l.length ≤ cap →
      (es.foldl (trackStep cap) l).length ≤ cap ∧
      List.Sorted scaledLE (es.foldl (trackStep cap) l) by
    exact H entries [] List.sorted_nil (by simp)
  intro es
  induction es with
  | nil => exact fun l hs hl => ⟨hl, hs⟩
  | cons e rest ih =>
    intro l hs hl
    simp only [List.foldl_cons]
    exact ih _ (popBackWhile_sorted _ _ (insert_ordered_sorted hs))
      (popBackWhile_length _ _)

end Keygen
